import Mathlib

/-!
# Verification of the OpenMLS core (adzialocha/openmls)

Shallow embedding of the parts of the repository needed to settle the
frozen claims:

* tree math (`parent`, `leaf_direct_path`, `parent_direct_path`,
  `descendants`, `descendants_alt`) — the implementation file
  `tree/treemath.rs` is not part of the analyzed sources (only its unit
  tests are), so these are modelled from the specification's description
  of the left-balanced binary tree layout;
* the Welcome-join procedure `MlsGroup::new_from_welcome_internal`
  (`group/mls_group/new_from_welcome.rs`), embedded with the pluggable
  cryptographic provider and the out-of-source subsystems (ratchet tree,
  key schedule, codec) abstracted as function parameters bundled in a
  `Backend` structure;
* the transcript-hash known-answer-test checks
  (`group/tests/kat_transcripts.rs`);
* `Mac` and its constant-time equality (`ciphersuite/mac.rs`);
* the proposal queue and the `ProposalOrRef` codec (modelled from the
  specification; `messages/proposals.rs` and `messages/codec.rs` are not
  part of the analyzed sources).

Bytes are modelled as `List Nat`; machine integers as `Nat`.
-/

namespace OpenMLS

/-- Byte strings (and other opaque binary values) are lists of naturals. -/
abbrev Bytes := List Nat

/-! ## Tree math

Modelled from the spec (§4.1, §3): `tree/treemath.rs` is not among the
analyzed source files; only its unit tests
(`tree/tests_and_kats/unit_tests/test_treemath.rs`) are.  The spec says:
node indices address a left-balanced binary tree of `n` leaves with
`2n-1` nodes; leaf indices are even node indices; the root for tree size
`n` is the node `2^ceil(log2(n)) - 1` (`0` when `n ≤ 1`); `parent(n,
size)` fails with `NodeNotInTree` when `n ≥ 2*size-1` and otherwise is
the unique ancestor one level up in the left-balanced layout;
`leaf_direct_path(leaf, size)` is the nodes from the leaf's parent up to
and including the root; `parent_direct_path(node, size)` is the same,
starting at `node`. -/

/-- Modelled from the spec: tree-math errors (`TreeMathError`), named in
the spec's §7 error taxonomy and in scenario S2. -/
inductive TreeMathError where
  | LeafNotInTree
  | NodeNotInTree
  deriving DecidableEq, Repr

/-- Modelled from the spec: the number of nodes of a tree with `n`
leaves, `2n-1` (§3). -/
def node_width (n : Nat) : Nat := 2 * n - 1

/-- Decidable equality on `Except`, by cases on the two constructors. -/
instance instDecidableEqExcept {ε α : Type} [DecidableEq ε] [DecidableEq α] :
    DecidableEq (Except ε α) := fun x y =>
  match x, y with
  | .ok a, .ok b =>
    match decEq a b with
    | isTrue h => isTrue (h ▸ rfl)
    | isFalse h => isFalse (fun hc => h (Except.ok.inj hc))
  | .error e, .error f =>
    match decEq e f with
    | isTrue h => isTrue (h ▸ rfl)
    | isFalse h => isFalse (fun hc => h (Except.error.inj hc))
  | .ok _, .error _ => isFalse (fun hc => Except.noConfusion hc)
  | .error _, .ok _ => isFalse (fun hc => Except.noConfusion hc)

/-- Fuel-indexed helper for `level` (structural recursion so that the
kernel can evaluate it on concrete inputs). -/
def levelAux : Nat → Nat → Nat
  | 0, _ => 0
  | fuel + 1, x => if x % 2 = 1 then levelAux fuel (x / 2) + 1 else 0

/-- The level of a node index in the left-balanced layout: the number of
trailing one bits.  Leaves (even indices) have level `0`. -/
def level (x : Nat) : Nat := levelAux x x

/-- The ancestor of node `x` at level `j` in the (untruncated)
left-balanced layout: clear the low `j+1` bits and fill the low `j` bits
with ones. -/
def ancestor (x j : Nat) : Nat := x / 2 ^ (j + 1) * 2 ^ (j + 1) + (2 ^ j - 1)

/-- Fuel-indexed floor base-2 logarithm (structural recursion so that
the kernel can evaluate it on concrete inputs). -/
def log2Aux : Nat → Nat → Nat
  | 0, _ => 0
  | fuel + 1, n => if 2 ≤ n then log2Aux fuel (n / 2) + 1 else 0

/-- Modelled from the spec: the root's level, `ceil(log2 n)` for `n`
leaves, computed as `log2` of the node width. -/
def rootLevel (n : Nat) : Nat := log2Aux (node_width n) (node_width n)

/-- Modelled from the spec: `root(size)` is the highest
power-of-two-minus-one that is at most `2*size-2` (§4.1), i.e.
`2^rootLevel - 1`. -/
def root (n : Nat) : Nat := 2 ^ rootLevel n - 1

/-- The ancestors of `x` between levels `c+1` and the root level that
lie inside the tree with `n` leaves (indices below the node width; the
left-balanced tree is truncated on the right). -/
def pathAux (n c x : Nat) : List Nat :=
  ((List.range' (c + 1) (rootLevel n - c)).map (ancestor x)).filter
    (fun y => y < node_width n)

/-- The ancestors of `x` inside the tree with `n` leaves, from the
lowest level above `x` up to the root level. -/
def filteredPath (x n : Nat) : List Nat := pathAux n (level x) x

/-- Modelled from the spec: `parent(n, size)` fails with `NodeNotInTree`
when `n ≥ 2*size-1`, and otherwise is the unique ancestor one level up
in the left-balanced layout — the nearest ancestor that exists in the
truncated tree.  The root has no ancestor; that case is reported as
`NodeNotInTree` as well. -/
def parent (x n : Nat) : Except TreeMathError Nat :=
  if x < node_width n then
    match filteredPath x n with
    | p :: _ => .ok p
    | [] => .error .NodeNotInTree
  else .error .NodeNotInTree

/-- Modelled from the spec: `leaf_direct_path(leaf, size)` — the nodes
from the leaf's parent up to and including the root; fails with
`LeafNotInTree` when `leaf ≥ size`.  The leaf's node index is `2·leaf`. -/
def leaf_direct_path (l n : Nat) : Except TreeMathError (List Nat) :=
  if l < n then .ok (filteredPath (2 * l) n) else .error .LeafNotInTree

/-- Modelled from the spec: `parent_direct_path(node, size)` — the same
path, starting at `node` itself; fails with `NodeNotInTree` when the
node is outside the tree. -/
def parent_direct_path (x n : Nat) : Except TreeMathError (List Nat) :=
  if x < node_width n then .ok (x :: filteredPath x n) else .error .NodeNotInTree

/-- The leftmost leaf (node index) of the complete subtree rooted at
`x` in the left-balanced layout. -/
def leftmost (x : Nat) : Nat := x - (2 ^ level x - 1)

/-- The rightmost node index of the complete (untruncated) subtree
rooted at `x`. -/
def subtreeRight (x : Nat) : Nat := x + (2 ^ level x - 1)

/-- Modelled from the spec: `descendants(n, size)` — the leaves under
`n` (§4.1), derived iteratively as the arithmetic range of even node
indices spanned by `n`'s subtree, truncated at the tree's node width. -/
def descendants (x size : Nat) : List Nat :=
  List.range' (leftmost x)
    ((min (subtreeRight x) (node_width size - 1) + 2 - leftmost x) / 2) 2

/-- The left child of a non-leaf node in the left-balanced layout. -/
def leftChild (x : Nat) : Nat := x - 2 ^ (level x - 1)

/-- Descend to the left while the candidate right child lies outside
the truncated tree of node width `w`. -/
def rightAux (w : Nat) : Nat → Nat → Nat
  | 0, r => r
  | fuel + 1, r => if r < w then r else rightAux w fuel (leftChild r)

/-- The right child of a non-leaf node in the truncated left-balanced
tree with `size` leaves: start from the complete tree's right child and
descend left until inside the tree. -/
def rightChild (x size : Nat) : Nat :=
  rightAux (node_width size) (level x) (x + 2 ^ (level x - 1))

/-- Fuel-indexed recursive collection of the leaves under a node:
a leaf yields itself, an inner node concatenates the leaves of its left
and right (truncated) children. -/
def descAux (size : Nat) : Nat → Nat → List Nat
  | 0, x => [x]
  | fuel + 1, x =>
    if level x = 0 then [x]
    else descAux size fuel (leftChild x) ++ descAux size fuel (rightChild x size)

/-- Modelled from the spec: `descendants_alt(n, size)` — the leaves
under `n`, derived recursively over the tree structure. -/
def descendants_alt (x size : Nat) : List Nat := descAux size (level x) x

/-! ## Mac and constant-time equality

`ciphersuite/mac.rs` defines `Mac` as a wrapper around a byte vector
and implements `PartialEq` ("Constant time comparison.") by delegating
to `equal_ct` on the two `mac_value` slices.  `equal_ct` itself lives
in `ciphersuite/mod.rs`, which is not among the analyzed sources; it is
modelled from the spec's requirement that equality on MAC values be
constant-time: compare lengths, then fold an or-of-xor accumulator over
all byte pairs with no early exit.  Constant time is formalized by an
explicit operation count: the number of loop iterations performed is a
function of the two lengths only. -/

/-- `Mac` (from `ciphersuite/mac.rs`): `opaque mac_value<0..255>`. -/
structure Mac where
  mac_value : Bytes
  deriving DecidableEq, Repr

/-- Modelled from the spec: `equal_ct` (body in `ciphersuite/mod.rs`,
not under the analyzed sources) — constant-time byte comparison: equal
lengths and an or-accumulated xor over all pairs, with no early exit. -/
def equal_ct (a b : Bytes) : Bool :=
  (a.length == b.length)
    && ((a.zip b).foldl (fun acc p => acc ||| (p.1 ^^^ p.2)) 0 == 0)

/-- The number of accumulator iterations `equal_ct` performs: one per
zipped byte pair, independent of the byte values. -/
def equal_ct_steps (a b : Bytes) : Nat := (a.zip b).length

/-- `Mac::eq` (from `ciphersuite/mac.rs`): constant-time comparison of
the two mac values. -/
def Mac.eq (a b : Mac) : Bool := equal_ct a.mac_value b.mac_value

/-- The operation count of `Mac::eq`. -/
def Mac.eqSteps (a b : Mac) : Nat := equal_ct_steps a.mac_value b.mac_value

/-! ## ProposalOrRef codec

Modelled from the spec: `messages/proposals.rs` and `messages/codec.rs`
are not among the analyzed sources (only the round-trip test
`messages/tests/test_proposals.rs` is).  The wire format follows §6:
fixed-width integers big-endian, variable vectors length-prefixed,
tagged variants with a one-byte discriminant, unknown discriminants
rejected at decode time.  Only the `Remove` arm of the `Proposal` enum
is modelled — the bodies of the other arms involve structures outside
the analyzed sources, and the claim's instances exercise `Remove` and
`Reference`. -/

/-- `RemoveProposal { removed: u32 }`. -/
structure RemoveProposal where
  removed : Nat
  deriving DecidableEq, Repr

/-- A `ProposalReference`: the hash of the encoded proposal, an opaque
byte vector with a one-byte length prefix on the wire. -/
structure ProposalReference where
  value : Bytes
  deriving DecidableEq, Repr

/-- The `Proposal` enum (modelled arm: `Remove`). -/
inductive Proposal where
  | remove (p : RemoveProposal)
  deriving DecidableEq, Repr

/-- `ProposalOrRef`: either an inline proposal or a reference. -/
inductive ProposalOrRef where
  | proposal (p : Proposal)
  | reference (r : ProposalReference)
  deriving DecidableEq, Repr

/-- Big-endian encoding of a `u32`. -/
def u32be (n : Nat) : Bytes :=
  [n / 2 ^ 24 % 256, n / 2 ^ 16 % 256, n / 2 ^ 8 % 256, n % 256]

/-- Big-endian decoding of a `u32`; fails on fewer than four bytes. -/
def decodeU32 : Bytes → Option (Nat × Bytes)
  | b0 :: b1 :: b2 :: b3 :: rest =>
    some (((b0 * 256 + b1) * 256 + b2) * 256 + b3, rest)
  | _ => none

/-- A byte vector with a one-byte length prefix (`<0..255>`). -/
def encodeVecU8 (v : Bytes) : Bytes := v.length :: v

/-- Decode a one-byte-length-prefixed vector. -/
def decodeVecU8 : Bytes → Option (Bytes × Bytes)
  | n :: rest => if n ≤ rest.length then some (rest.take n, rest.drop n) else none
  | [] => none

/-- Encode a `Proposal`: one-byte `ProposalType` discriminant
(`Remove` = 3) followed by the body. -/
def encodeProposal : Proposal → Bytes
  | .remove p => 3 :: u32be p.removed

/-- Decode a `Proposal`; unknown discriminants are rejected. -/
def decodeProposal : Bytes → Option (Proposal × Bytes)
  | 3 :: rest =>
    match decodeU32 rest with
    | some (n, r) => some (.remove ⟨n⟩, r)
    | none => none
  | _ => none

/-- Encode a `ProposalOrRef`: one-byte discriminant (`proposal` = 1,
`reference` = 2) followed by the body. -/
def encodeProposalOrRef : ProposalOrRef → Bytes
  | .proposal p => 1 :: encodeProposal p
  | .reference r => 2 :: encodeVecU8 r.value

/-- Decode a `ProposalOrRef`; unknown discriminants are rejected. -/
def decodeProposalOrRef : Bytes → Option (ProposalOrRef × Bytes)
  | 1 :: rest =>
    match decodeProposal rest with
    | some (p, r) => some (.proposal p, r)
    | none => none
  | 2 :: rest =>
    match decodeVecU8 rest with
    | some (v, r) => some (.reference ⟨v⟩, r)
    | none => none
  | _ => none

/-- An encodable (wire-representable) `ProposalOrRef`: the removed
index fits a `u32`, and a reference value fits its one-byte length
prefix with byte-sized entries. -/
def wfProposalOrRef : ProposalOrRef → Prop
  | .proposal (.remove p) => p.removed < 2 ^ 32
  | .reference r => r.value.length < 256 ∧ ∀ b ∈ r.value, b < 256

instance : DecidablePred wfProposalOrRef := fun m =>
  match m with
  | .proposal (.remove _) => inferInstanceAs (Decidable (_ < _))
  | .reference _ => inferInstanceAs (Decidable (_ ∧ _))

/-! ## Proposal queue

Modelled from the spec (§4.7): `messages/proposals.rs` is not among the
analyzed sources (only the ordering test
`messages/tests/test_proposals.rs` is).  A `ProposalQueue` is an
insertion-ordered collection keyed by `ProposalReference` (the hash of
the encoded proposal); duplicate references collapse;
`from_committed_proposals` resolves references against the available
proposals, failing with `ProposalNotFound` on an unresolved reference,
and keeps the commit's stated order.  Proposals and references are kept
abstract (`α`, `ρ`) together with the hashing function; the sender
argument of `from_committed_proposals` plays no role in the ordering
and is omitted. -/

/-- Commit-engine errors, from the spec's §7 error taxonomy. -/
inductive CommitError where
  | ProposalNotFound
  | StaleEpoch
  deriving DecidableEq, Repr

/-- A `ProposalOrRef` over abstract proposals `α` and references `ρ`. -/
inductive ProposalOrRefG (ρ α : Type) where
  | proposal (p : α)
  | reference (r : ρ)
  deriving DecidableEq

/-- The queue: an insertion-ordered association list from references to
proposals. -/
structure ProposalQueue (ρ α : Type) where
  entries : List (ρ × α)
  deriving DecidableEq

/-- Insert an entry, collapsing a duplicate reference. -/
def queueInsert {ρ α : Type} [DecidableEq ρ]
    (q : List (ρ × α)) (r : ρ) (p : α) : List (ρ × α) :=
  if q.any (fun e => decide (e.1 = r)) then q else q ++ [(r, p)]

/-- Modelled from the spec: `from_proposals_by_reference` hashes each
proposal to a reference and inserts it preserving input order,
collapsing duplicate references. -/
def from_proposals_by_reference {ρ α : Type} [DecidableEq ρ]
    (hash : α → ρ) (props : List α) : ProposalQueue ρ α :=
  ⟨props.foldl (fun q p => queueInsert q (hash p) p) []⟩

/-- Worker for `from_committed_proposals`. -/
def from_committed_aux {ρ α : Type} [DecidableEq ρ] (hash : α → ρ)
    (available : List α) :
    List (ProposalOrRefG ρ α) → List (ρ × α) → Except CommitError (List (ρ × α))
  | [], acc => .ok acc
  | .proposal p :: rest, acc =>
    from_committed_aux hash available rest (queueInsert acc (hash p) p)
  | .reference r :: rest, acc =>
    match available.find? (fun p => decide (hash p = r)) with
    | some p => from_committed_aux hash available rest (queueInsert acc r p)
    | none => .error .ProposalNotFound

/-- Modelled from the spec: `from_committed_proposals` resolves the
commit's `ProposalOrRef` list against the available proposals in the
commit's stated order; an unresolved reference yields
`ProposalNotFound`. -/
def from_committed_proposals {ρ α : Type} [DecidableEq ρ] (hash : α → ρ)
    (por : List (ProposalOrRefG ρ α)) (available : List α) :
    Except CommitError (ProposalQueue ρ α) :=
  (from_committed_aux hash available por []).map (fun l => ⟨l⟩)

/-- The reference under which a `ProposalOrRef` is keyed. -/
def refOf {ρ α : Type} (hash : α → ρ) : ProposalOrRefG ρ α → ρ
  | .proposal p => hash p
  | .reference r => r

/-- The proposal a `ProposalOrRef` resolves to, if any. -/
def resolveProposalOrRef {ρ α : Type} [DecidableEq ρ] (hash : α → ρ)
    (available : List α) : ProposalOrRefG ρ α → Option α
  | .proposal p => some p
  | .reference r => available.find? (fun p => decide (hash p = r))

/-! ## Welcome join (`group/mls_group/new_from_welcome.rs`)

`MlsGroup::new_from_welcome_internal` is among the analyzed sources and
is embedded below with its control flow intact.  The subsystems it
calls — the pluggable cryptographic provider, the ratchet tree, the key
schedule, the TLS codec — are outside the analyzed sources and appear
as abstract function parameters bundled in a `Backend` record.  Byte
panics of the Rust source (`Vec` indexing) are modelled totally with
`List.getD`; all fallible calls return `Option`/`Except`.  The message
structs follow `messages/mod.rs` (which is among the sources). -/

/-- `KeyPackage`: only the fields the join reads (the ciphersuite name
and, abstractly, the signed payload the provider hashes). -/
structure KeyPackage where
  ciphersuite_name : Nat
  payload : Bytes
  deriving DecidableEq, Repr

/-- `KeyPackageBundle`: a key package with its HPKE private key. -/
structure KeyPackageBundle where
  key_package : KeyPackage
  private_key : Bytes
  deriving DecidableEq, Repr

/-- `EncryptedGroupSecrets` (from `messages/mod.rs`):
`(key_package_hash, HPKE ciphertext of the GroupSecrets)`. -/
structure EncryptedGroupSecrets where
  key_package_hash : Bytes
  encrypted_group_secrets : Bytes
  deriving DecidableEq, Repr

/-- `Welcome` (from `messages/mod.rs`):
`(version, cipher_suite, secrets, encrypted_group_info)`. -/
structure Welcome where
  version : Nat
  cipher_suite : Nat
  secrets : List EncryptedGroupSecrets
  encrypted_group_info : Bytes
  deriving DecidableEq, Repr

/-- A ratchet-tree node as carried by a Welcome: a possibly-blank leaf
or parent; the join only reads the optional key package. -/
structure Node where
  key_package : Option KeyPackage
  deriving DecidableEq, Repr

/-- The ratchet-tree extension: the serialized tree's node list. -/
structure RatchetTreeExtension where
  nodes : List (Option Node)
  deriving DecidableEq, Repr

/-- Extension types (`ExtensionType`). -/
inductive ExtensionType where
  | ratchetTree
  | requiredCapabilities
  | unknown (n : Nat)
  deriving DecidableEq, Repr

/-- Extensions as a tagged variant.  An extension of type `RatchetTree`
always downcasts to a `RatchetTreeExtension` (in the source,
`as_ratchet_tree_extension` succeeds exactly on that variant). -/
inductive Extension where
  | ratchetTree (ext : RatchetTreeExtension)
  | requiredCapabilities (data : Bytes)
  | other (ty : Nat) (data : Bytes)
  deriving DecidableEq, Repr

def Extension.extension_type : Extension → ExtensionType
  | .ratchetTree _ => .ratchetTree
  | .requiredCapabilities _ => .requiredCapabilities
  | .other ty _ => .unknown ty

def Extension.as_ratchet_tree_extension : Extension → Option RatchetTreeExtension
  | .ratchetTree e => some e
  | _ => none

def Extension.as_required_capabilities_extension : Extension → Option Bytes
  | .requiredCapabilities d => some d
  | _ => none

/-- `GroupInfo` (payload fields from `messages/mod.rs`; the
confirmation tag is its mac value). -/
structure GroupInfo where
  group_id : Bytes
  epoch : Nat
  tree_hash : Bytes
  confirmed_transcript_hash : Bytes
  group_context_extensions : List Extension
  other_extensions : List Extension
  confirmation_tag : Bytes
  signer_index : Nat
  signature : Bytes
  deriving DecidableEq, Repr

/-- `GroupSecrets` (from `messages/mod.rs`):
`(joiner_secret, optional path_secret, psks)`. -/
structure GroupSecrets where
  joiner_secret : Bytes
  path_secret : Option Bytes
  psks : Bytes
  deriving DecidableEq, Repr

/-- `GroupContext`: `(group_id, epoch, tree_hash,
confirmed_transcript_hash, extensions)`. -/
structure GroupContext where
  group_id : Bytes
  epoch : Nat
  tree_hash : Bytes
  confirmed_transcript_hash : Bytes
  extensions : List Extension
  deriving DecidableEq, Repr

/-- The epoch-secret fields the join reads. -/
structure EpochSecrets where
  encryption_secret : Bytes
  confirmation_key : Bytes
  deriving DecidableEq, Repr

/-- The ratchet tree as the join observes it: the node sequence plus
the opaque tree state the out-of-source tree operations act on. -/
structure RatchetTree where
  nodes : List Node
  own_node_index : Nat
  leaf_count : Nat
  private_state : Bytes
  deriving DecidableEq, Repr

/-- The `MlsGroup` record assembled by a successful join. -/
structure MlsGroup where
  group_context : GroupContext
  epoch_secrets : EpochSecrets
  secret_tree : Bytes
  tree : RatchetTree
  interim_transcript_hash : Bytes
  use_ratchet_tree_extension : Bool
  mls_version : Nat
  deriving DecidableEq, Repr

/-- `WelcomeError` (from the spec's §7 taxonomy plus the conversions
the source's `?` operator performs: config, codec, crypto, PSK and
key-schedule failures, and tree errors). -/
inductive WelcomeError where
  | UnsupportedMlsVersion
  | UnsupportedCiphersuite
  | CiphersuiteMismatch
  | JoinerSecretNotFound
  | CryptoError
  | CodecError
  | PskError
  | KeyScheduleError
  | GroupInfoDecryptionFailure
  | UnsupportedCapabilities
  | DuplicateRatchetTreeExtension
  | MissingRatchetTree
  | UnknownError
  | InvalidRatchetTree
  | TreeHashMismatch
  | ParentHashMismatch
  | MissingKeyPackage
  | InvalidGroupInfoSignature
  | ConfirmationTagMismatch
  deriving DecidableEq, Repr

/-- A plaintext commit as the transcript KAT reads it: its optional
confirmation tag and the (opaque) rest of the message. -/
structure MlsPlaintextCommit where
  confirmation_tag : Option Bytes
  body : Bytes
  deriving DecidableEq, Repr

/-- The cryptographic provider and the out-of-source subsystems,
abstracted as functions.  Key-schedule state is opaque (`Bytes`). -/
structure Backend where
  supportedVersions : List Nat
  supportedCiphersuite : Nat → Bool
  kpHash : KeyPackage → Bytes
  hpkeOpen : Bytes → Bytes → Option Bytes
  decodeGroupSecrets : Bytes → Option GroupSecrets
  pskOutput : Bytes → Option (Option Bytes)
  ksInit : Bytes → Option Bytes → Bytes
  ksWelcome : Bytes → Option (Bytes × Bytes × Bytes)
  aeadOpen : Bytes → Bytes → Bytes → Option Bytes
  decodeGroupInfo : Bytes → Option GroupInfo
  checkRequiredCapabilitiesSupport : Bytes → Bool
  checkExtensionSupport : KeyPackage → Bytes → Bool
  newFromNodes : KeyPackageBundle → List (Option Node) → Option RatchetTree
  treeHash : RatchetTree → Bytes
  verifyParentHashes : RatchetTree → Bool
  verifySignature : GroupInfo → KeyPackage → Bool
  commonAncestorIndex : Nat → Nat → Nat
  continuePathSecrets : RatchetTree → Bytes → List Nat → (List Bytes × RatchetTree)
  validatePublicKeys : RatchetTree → List Bytes → List Nat → Bool
  ksAddContext : Bytes → GroupContext → Option Bytes
  ksEpochSecrets : Bytes → Option EpochSecrets
  createSecretTree : Bytes → Nat → Bytes
  macTag : Bytes → Bytes → Bytes
  authDataOfTag : Bytes → Bytes
  hash : Bytes → Bytes
  commitContent : MlsPlaintextCommit → Bytes
  commitAuthData : MlsPlaintextCommit → Bytes

/-- Modelled from the spec: `update_confirmed_transcript_hash` (in
`group/mod.rs`, not among the analyzed sources) —
`confirmed_transcript_hash_after =
H(interim_transcript_hash_before || MlsPlaintextCommitContent)`. -/
def update_confirmed_transcript_hash (H : Bytes → Bytes)
    (commit_content interim_transcript_hash : Bytes) : Bytes :=
  H (interim_transcript_hash ++ commit_content)

/-- Modelled from the spec: `update_interim_transcript_hash` (in
`group/mod.rs`, not among the analyzed sources) —
`interim_transcript_hash_after =
H(confirmed_transcript_hash_after || MlsPlaintextCommitAuthData)`. -/
def update_interim_transcript_hash (H : Bytes → Bytes)
    (commit_auth_data confirmed_transcript_hash : Bytes) : Bytes :=
  H (confirmed_transcript_hash ++ commit_auth_data)

/-- `MlsGroup::find_key_package_from_welcome_secrets` (from
`new_from_welcome.rs`): the first entry of the welcome secrets whose
`key_package_hash` equals the hash of the given key package. -/
def find_key_package_from_welcome_secrets (b : Backend) (kp : KeyPackage) :
    List EncryptedGroupSecrets → Option EncryptedGroupSecrets
  | [] => none
  | egs :: rest =>
    if b.kpHash kp = egs.key_package_hash then some egs
    else find_key_package_from_welcome_secrets b kp rest

/-- Lines 103–108 of `new_from_welcome.rs`: collect the RatchetTree
extensions of `GroupInfo.other_extensions` (filter by extension type,
then downcast each). -/
def collectRatchetTreeExtensions (exts : List Extension) :
    List (Option RatchetTreeExtension) :=
  (exts.filter (fun e => e.extension_type = ExtensionType.ratchetTree)).map
    Extension.as_ratchet_tree_extension

/-- Lines 103–136 of `new_from_welcome.rs`: more than one RatchetTree
extension is `DuplicateRatchetTreeExtension`; otherwise `Vec::pop`
takes the last (hence only) entry; a present extension supplies the
nodes and enables the extension for the group, otherwise the
caller-provided nodes are used, and with neither the join fails with
`MissingRatchetTree`. -/
def resolveRatchetTreeNodes (other_extensions : List Extension)
    (nodes_option : Option (List (Option Node))) :
    Except WelcomeError (List (Option Node) × Bool) :=
  let rtes := collectRatchetTreeExtensions other_extensions
  if rtes.length > 1 then .error .DuplicateRatchetTreeExtension
  else
    match (if rtes.isEmpty then Except.ok (none : Option RatchetTreeExtension)
           else
             match rtes.getLast? with
             | some e => Except.ok e
             | none => Except.error WelcomeError.UnknownError) with
    | .error e => .error e
    | .ok (some tree) => .ok (tree.nodes, true)
    | .ok none =>
      match nodes_option with
      | some n => .ok (n, false)
      | none => .error .MissingRatchetTree

/-- Lines 83–97 of `new_from_welcome.rs`: if the group-context
extensions carry a RequiredCapabilities extension, check that this
implementation and the own key package support it. -/
def requiredCapabilitiesCheck (b : Backend) (kpb : KeyPackageBundle)
    (group_info : GroupInfo) : Except WelcomeError Unit :=
  match group_info.group_context_extensions.find?
      (fun e => e.extension_type = ExtensionType.requiredCapabilities) with
  | none => .ok ()
  | some e =>
    match e.as_required_capabilities_extension with
    | none => .error .CodecError
    | some rc =>
      if b.checkRequiredCapabilitiesSupport rc then
        if b.checkExtensionSupport kpb.key_package rc then .ok ()
        else .error .UnsupportedCapabilities
      else .error .UnsupportedCapabilities

/-- Lines 158–183 of `new_from_welcome.rs`: when a path secret is
present, derive the path secrets up the common ancestor's direct path
and validate the derived public keys against the tree.  The source
unwraps `parent_direct_path` (its comment: it never errors there); the
model defaults that impossible case to the empty path. -/
def continue_path_secrets_step (b : Backend) (group_info : GroupInfo)
    (tree : RatchetTree) : Option Bytes → Except WelcomeError RatchetTree
  | none => .ok tree
  | some path_secret =>
    let common_ancestor_index :=
      b.commonAncestorIndex tree.own_node_index group_info.signer_index
    let common_path :=
      match parent_direct_path common_ancestor_index tree.leaf_count with
      | .ok p => p
      | .error _ => []
    match b.continuePathSecrets tree path_secret common_path with
    | (new_public_keys, tree') =>
      if b.validatePublicKeys tree' new_public_keys common_path then .ok tree'
      else .error .InvalidRatchetTree

/-- Lines 185–192 of `new_from_welcome.rs`: the `GroupContext` a join
builds — the GroupInfo's group id, epoch, confirmed transcript hash and
group-context extensions together with the recomputed tree hash.  The
join reads `group_context.confirmed_transcript_hash` when computing the
confirmation tag; by construction those are the GroupInfo's bytes. -/
def mkJoinGroupContext (group_info : GroupInfo) (tree_hash : Bytes) : GroupContext :=
  ⟨group_info.group_id, group_info.epoch, tree_hash,
    group_info.confirmed_transcript_hash, group_info.group_context_extensions⟩

/-- Lines 138–229 of `new_from_welcome.rs`: build the tree from the
chosen nodes, verify the tree hash, the parent hashes and the GroupInfo
signature, process the optional path secret, advance the key schedule
with the new group context, and verify the confirmation tag.  (The
source's `GroupContext::new` only repackages the fields; its codec
error path is not modelled.  Rust's panicking `Vec` index for the
signer node is modelled totally with a blank default.) -/
def joinWithNodes (b : Backend) (kpb : KeyPackageBundle)
    (path_secret_option : Option Bytes) (key_schedule : Bytes)
    (mls_version : Nat) (group_info : GroupInfo)
    (nodes : List (Option Node)) (enable_ratchet_tree_extension : Bool) :
    Except WelcomeError MlsGroup :=
  match b.newFromNodes kpb nodes with
  | none => .error .InvalidRatchetTree
  | some tree =>
    if b.treeHash tree ≠ group_info.tree_hash then .error .TreeHashMismatch
    else if ¬ b.verifyParentHashes tree then .error .ParentHashMismatch
    else
      match (tree.nodes.getD group_info.signer_index ⟨none⟩).key_package with
      | none => .error .MissingKeyPackage
      | some signer_key_package =>
        if ¬ b.verifySignature group_info signer_key_package then
          .error .InvalidGroupInfoSignature
        else
          match continue_path_secrets_step b group_info tree path_secret_option with
          | .error e => .error e
          | .ok tree₁ =>
            match b.ksAddContext key_schedule
                (mkJoinGroupContext group_info (b.treeHash tree)) with
            | none => .error .KeyScheduleError
            | some key_schedule₁ =>
              match b.ksEpochSecrets key_schedule₁ with
              | none => .error .KeyScheduleError
              | some epoch_secrets =>
                if b.macTag epoch_secrets.confirmation_key
                    group_info.confirmed_transcript_hash
                    ≠ group_info.confirmation_tag then
                  .error .ConfirmationTagMismatch
                else
                  .ok ⟨mkJoinGroupContext group_info (b.treeHash tree),
                    epoch_secrets,
                    b.createSecretTree epoch_secrets.encryption_secret
                      tree₁.leaf_count,
                    tree₁,
                    update_interim_transcript_hash b.hash
                      (b.authDataOfTag
                        (b.macTag epoch_secrets.confirmation_key
                          group_info.confirmed_transcript_hash))
                      group_info.confirmed_transcript_hash,
                    enable_ratchet_tree_extension,
                    mls_version⟩

/-- The tail of `new_from_welcome_internal` after the GroupInfo has
been decrypted and decoded: the required-capabilities check, the
ratchet-tree-extension resolution, and the rest of the join. -/
def joinFromGroupInfo (b : Backend) (kpb : KeyPackageBundle)
    (path_secret_option : Option Bytes) (key_schedule : Bytes)
    (mls_version : Nat) (nodes_option : Option (List (Option Node)))
    (group_info : GroupInfo) : Except WelcomeError MlsGroup :=
  match requiredCapabilitiesCheck b kpb group_info with
  | .error e => .error e
  | .ok _ =>
    match resolveRatchetTreeNodes group_info.other_extensions nodes_option with
    | .error e => .error e
    | .ok (nodes, enable) =>
      joinWithNodes b kpb path_secret_option key_schedule mls_version
        group_info nodes enable

/-- The part of `new_from_welcome_internal` that follows a successful
`EncryptedGroupSecrets` lookup (lines 40–81 and onward): the
ciphersuite-consistency check, HPKE-open of the group secrets, the key
schedule down to the welcome key, AEAD-open and decode of the
GroupInfo, then `joinFromGroupInfo`. -/
def joinWithEgs (b : Backend) (welcome : Welcome)
    (nodes_option : Option (List (Option Node))) (kpb : KeyPackageBundle)
    (egs : EncryptedGroupSecrets) : Except WelcomeError MlsGroup :=
  if welcome.cipher_suite ≠ kpb.key_package.ciphersuite_name then
    .error .CiphersuiteMismatch
  else
    match b.hpkeOpen egs.encrypted_group_secrets kpb.private_key with
    | none => .error .CryptoError
    | some group_secrets_bytes =>
      match b.decodeGroupSecrets group_secrets_bytes with
      | none => .error .CodecError
      | some group_secrets =>
        match b.pskOutput group_secrets.psks with
        | none => .error .PskError
        | some psk =>
          match b.ksWelcome (b.ksInit group_secrets.joiner_secret psk) with
          | none => .error .KeyScheduleError
          | some (welcome_key, welcome_nonce, key_schedule) =>
            match b.aeadOpen welcome_key welcome.encrypted_group_info welcome_nonce with
            | none => .error .GroupInfoDecryptionFailure
            | some group_info_bytes =>
              match b.decodeGroupInfo group_info_bytes with
              | none => .error .CodecError
              | some group_info =>
                joinFromGroupInfo b kpb group_secrets.path_secret key_schedule
                  welcome.version nodes_option group_info

/-- `MlsGroup::new_from_welcome_internal` (lines 14–39): check the
protocol version and ciphersuite support, look the own key package up
in the welcome secrets (absent ⇒ `JoinerSecretNotFound`), then continue
with the found entry. -/
def new_from_welcome_internal (b : Backend) (welcome : Welcome)
    (nodes_option : Option (List (Option Node))) (kpb : KeyPackageBundle) :
    Except WelcomeError MlsGroup :=
  if welcome.version ∈ b.supportedVersions then
    if b.supportedCiphersuite welcome.cipher_suite then
      match find_key_package_from_welcome_secrets b kpb.key_package welcome.secrets with
      | some egs => joinWithEgs b welcome nodes_option kpb egs
      | none => .error .JoinerSecretNotFound
    else .error .UnsupportedCiphersuite
  else .error .UnsupportedMlsVersion

/-- The failure modes of the transcript KAT checks (from
`kat_transcripts.rs`; the missing-tag case is a panic in the source). -/
inductive TranscriptCheckError where
  | MissingConfirmationTag
  | ConfirmationTagMismatch
  | ConfirmedTranscriptHashMismatch
  | InterimTranscriptHashMismatch
  deriving DecidableEq, Repr

/-- A transcript test vector: the fields `run_test_vector` reads in its
transcript-chain checks (hex fields modelled as byte lists). -/
structure TranscriptTestVector where
  confirmation_key : Bytes
  interim_transcript_hash_before : Bytes
  confirmed_transcript_hash_after : Bytes
  interim_transcript_hash_after : Bytes
  deriving DecidableEq, Repr

/-- Lines 244–300 of `kat_transcripts.rs` (`run_test_vector`, after the
membership and signature verification): recompute the confirmation tag
over the expected confirmed transcript hash and compare it with the
commit's; recompute the confirmed transcript hash from the interim hash
and the commit content and compare; recompute the interim transcript
hash from it and the commit auth data and compare. -/
def run_test_vector_checks (b : Backend) (tv : TranscriptTestVector)
    (commit : MlsPlaintextCommit) : Except TranscriptCheckError Unit :=
  match commit.confirmation_tag with
  | none => .error .MissingConfirmationTag
  | some tag =>
    if b.macTag tv.confirmation_key tv.confirmed_transcript_hash_after ≠ tag then
      .error .ConfirmationTagMismatch
    else if update_confirmed_transcript_hash b.hash (b.commitContent commit)
        tv.interim_transcript_hash_before ≠ tv.confirmed_transcript_hash_after then
      .error .ConfirmedTranscriptHashMismatch
    else if update_interim_transcript_hash b.hash (b.commitAuthData commit)
        (update_confirmed_transcript_hash b.hash (b.commitContent commit)
          tv.interim_transcript_hash_before) ≠ tv.interim_transcript_hash_after then
      .error .InterimTranscriptHashMismatch
    else .ok ()

/-- A concrete key package for witness instances. -/
def KP0 : KeyPackage := ⟨0, []⟩

/-- A concrete key package bundle for witness instances. -/
def KPB0 : KeyPackageBundle := ⟨KP0, []⟩

/-- A concrete backend for witness instances: the hash is the identity
on bytes, the MAC is concatenation, and the fallible operations that
the witnesses do not reach return `none`. -/
def B0 : Backend :=
  { supportedVersions := [1]
    supportedCiphersuite := fun _ => true
    kpHash := fun _ => [9]
    hpkeOpen := fun _ _ => none
    decodeGroupSecrets := fun _ => none
    pskOutput := fun _ => none
    ksInit := fun _ _ => []
    ksWelcome := fun _ => none
    aeadOpen := fun _ _ _ => none
    decodeGroupInfo := fun _ => none
    checkRequiredCapabilitiesSupport := fun _ => true
    checkExtensionSupport := fun _ _ => true
    newFromNodes := fun _ _ => none
    treeHash := fun _ => []
    verifyParentHashes := fun _ => true
    verifySignature := fun _ _ => true
    commonAncestorIndex := fun _ _ => 0
    continuePathSecrets := fun t _ _ => ([], t)
    validatePublicKeys := fun _ _ _ => true
    ksAddContext := fun _ _ => none
    ksEpochSecrets := fun _ => none
    createSecretTree := fun _ _ => []
    macTag := fun key confirmed => key ++ confirmed
    authDataOfTag := fun t => t
    hash := fun bs => bs
    commitContent := fun _ => []
    commitAuthData := fun _ => [] }

/-- A concrete GroupInfo with no extensions, for witness instances. -/
def GI0 : GroupInfo := ⟨[], 0, [], [], [], [], [], 0, []⟩

/-- A concrete ratchet-tree extension, for witness instances. -/
def RTE0 : RatchetTreeExtension := ⟨[]⟩

/-- A concrete GroupInfo whose other extensions carry the ratchet-tree
extension twice, as in the tampered Welcome of the duplicate-extension
test. -/
def GI2 : GroupInfo :=
  ⟨[], 0, [], [], [],
    [Extension.ratchetTree RTE0, Extension.ratchetTree RTE0], [], 0, []⟩

/-- A concrete Welcome with no secrets, ciphersuite matching `KP0`. -/
def W0 : Welcome := ⟨1, 0, [], []⟩

/-- A concrete Welcome with no secrets and a ciphersuite differing from
`KP0`'s. -/
def W1 : Welcome := ⟨1, 5, [], []⟩

/-- A concrete transcript test vector that passes the KAT checks under
`B0`. -/
def TV0 : TranscriptTestVector := ⟨[1], [2], [2], [2]⟩

/-- A concrete commit whose confirmation tag matches `TV0` under `B0`. -/
def C0 : MlsPlaintextCommit := ⟨some [1, 2], []⟩

/-! ## Theorems -/

theorem levelAux_congr : ∀ x f g, x ≤ f → x ≤ g → levelAux f x = levelAux g x := by
  intro x
  induction x using Nat.strong_induction_on with
  | _ x ih =>
    intro f g hf hg
    rcases Nat.mod_two_eq_zero_or_one x with h | h
    · cases f with
      | zero =>
        cases g with
        | zero => rfl
        | succ g' => simp [levelAux, h]
      | succ f' =>
        cases g with
        | zero => simp [levelAux, h]
        | succ g' => simp [levelAux, h]
    · have hx1 : 1 ≤ x := by omega
      obtain ⟨f', rfl⟩ : ∃ f', f = f' + 1 := ⟨f - 1, by omega⟩
      obtain ⟨g', rfl⟩ : ∃ g', g = g' + 1 := ⟨g - 1, by omega⟩
      have hlt : x / 2 < x := Nat.div_lt_self (by omega) (by omega)
      simp only [levelAux, h, if_pos]
      rw [ih (x / 2) hlt f' g' (by omega) (by omega)]

theorem level_of_even {x : Nat} (h : x % 2 = 0) : level x = 0 := by
  unfold level
  cases x with
  | zero => rfl
  | succ x' => simp [levelAux, h]

theorem level_of_odd {x : Nat} (h : x % 2 = 1) : level x = level (x / 2) + 1 := by
  have hx1 : 1 ≤ x := by omega
  obtain ⟨x', rfl⟩ : ∃ x', x = x' + 1 := ⟨x - 1, by omega⟩
  show levelAux (x' + 1) (x' + 1) = levelAux ((x' + 1) / 2) ((x' + 1) / 2) + 1
  have hlt : (x' + 1) / 2 < x' + 1 := Nat.div_lt_self (by omega) (by omega)
  simp only [levelAux, h, if_pos]
  rw [levelAux_congr ((x' + 1) / 2) x' ((x' + 1) / 2) (by omega) (le_refl _)]

theorem level_two_mul (m : Nat) : level (2 * m) = 0 :=
  level_of_even (by omega)

/-- Characterization: a number of the form `q·2^(k+1) + (2^k - 1)` has
level exactly `k`. -/
theorem level_form (k q : Nat) : level (q * 2 ^ (k + 1) + (2 ^ k - 1)) = k := by
  induction k generalizing q with
  | zero =>
    exact level_of_even (by omega)
  | succ k ih =>
    have hpow : q * 2 ^ (k + 1 + 1) = 2 * (q * 2 ^ (k + 1)) := by ring
    have hpow' : 2 ^ (k + 1) = 2 * 2 ^ k := by ring
    have h2k : 1 ≤ 2 ^ k := Nat.one_le_two_pow
    have hx : q * 2 ^ (k + 1 + 1) + (2 ^ (k + 1) - 1)
        = 2 * (q * 2 ^ (k + 1) + (2 ^ k - 1)) + 1 := by
      rw [hpow, hpow']; omega
    have hodd : (q * 2 ^ (k + 1 + 1) + (2 ^ (k + 1) - 1)) % 2 = 1 := by
      rw [hx]; omega
    rw [level_of_odd hodd, hx]
    have : (2 * (q * 2 ^ (k + 1) + (2 ^ k - 1)) + 1) / 2
        = q * 2 ^ (k + 1) + (2 ^ k - 1) := by omega
    rw [this, ih]

/-- Representation: every `x` decomposes as
`(x / 2^(level x + 1)) · 2^(level x + 1) + (2^(level x) - 1)`. -/
theorem level_rep (x : Nat) : x % 2 ^ (level x + 1) = 2 ^ (level x) - 1 := by
  induction x using Nat.strong_induction_on with
  | _ x ih =>
    rcases Nat.mod_two_eq_zero_or_one x with h | h
    · rw [level_of_even h]; omega
    · have hx1 : 1 ≤ x := by omega
      have hlt : x / 2 < x := Nat.div_lt_self (by omega) (by omega)
      have hrec := ih (x / 2) hlt
      rw [level_of_odd h]
      set k := level (x / 2) with hk
      have hpow : 2 ^ (k + 1 + 1) = 2 * 2 ^ (k + 1) := by ring
      have hpow' : 2 ^ (k + 1) = 2 * 2 ^ k := by ring
      have h2k : 1 ≤ 2 ^ k := Nat.one_le_two_pow
      have hr : x / 2 % 2 ^ (k + 1) < 2 ^ (k + 1) :=
        Nat.mod_lt (x / 2) (by positivity)
      have hx2 : x = (2 * (x / 2 % 2 ^ (k + 1)) + 1)
          + 2 * 2 ^ (k + 1) * (x / 2 / 2 ^ (k + 1)) := by
        rw [Nat.mul_assoc]
        have := Nat.div_add_mod (x / 2) (2 ^ (k + 1))
        omega
      have hmod : x % (2 * 2 ^ (k + 1)) = 2 * (x / 2 % 2 ^ (k + 1)) + 1 := by
        conv_lhs => rw [hx2]
        rw [Nat.add_mul_mod_self_left]
        exact Nat.mod_eq_of_lt (by omega)
      rw [hpow, hmod, hrec, hpow']
      omega

theorem level_ancestor (x j : Nat) : level (ancestor x j) = j := level_form j _

/-- Taking an ancestor at a higher level factors through a lower one. -/
theorem ancestor_ancestor (x : Nat) {j j' : Nat} (h : j ≤ j') :
    ancestor (ancestor x j) j' = ancestor x j' := by
  unfold ancestor
  have hdiv : (x / 2 ^ (j + 1) * 2 ^ (j + 1) + (2 ^ j - 1)) / 2 ^ (j' + 1)
      = x / 2 ^ (j' + 1) := by
    have hfac : 2 ^ (j' + 1) = 2 ^ (j + 1) * 2 ^ (j' - j) := by
      rw [← pow_add]; congr 1; omega
    rw [hfac, ← Nat.div_div_eq_div_mul, ← Nat.div_div_eq_div_mul]
    congr 1
    have hlt : 2 ^ j - 1 < 2 ^ (j + 1) := by
      have : 1 ≤ 2 ^ j := Nat.one_le_two_pow
      have : 2 ^ (j + 1) = 2 * 2 ^ j := by ring
      omega
    rw [Nat.add_comm (x / 2 ^ (j + 1) * 2 ^ (j + 1)) (2 ^ j - 1)]
    rw [Nat.add_mul_div_right _ _ (by positivity : 0 < 2 ^ (j + 1))]
    rw [Nat.div_eq_of_lt hlt, Nat.zero_add]
  rw [hdiv]

theorem log2Aux_eq_log2 : ∀ n f, n ≤ f → log2Aux f n = Nat.log2 n := by
  intro n
  induction n using Nat.strong_induction_on with
  | _ n ih =>
    intro f hf
    by_cases h : 2 ≤ n
    · obtain ⟨f', rfl⟩ : ∃ f', f = f' + 1 := ⟨f - 1, by omega⟩
      have hlt : n / 2 < n := Nat.div_lt_self (by omega) (by omega)
      simp only [log2Aux, h, if_pos]
      rw [ih (n / 2) hlt f' (by omega)]
      conv_rhs => rw [Nat.log2]
      simp [h]
    · have h2 : Nat.log2 n = 0 := by rw [Nat.log2]; simp [h]
      rw [h2]
      cases f with
      | zero => rfl
      | succ f' => simp [log2Aux, h]

theorem rootLevel_eq (n : Nat) : rootLevel n = Nat.log2 (node_width n) :=
  log2Aux_eq_log2 _ _ (Nat.le_refl _)

theorem rep_of_level {x k : Nat} (h : level x = k) :
    x = 2 ^ (k + 1) * (x / 2 ^ (k + 1)) + (2 ^ k - 1) := by
  have h1 := level_rep x
  rw [h] at h1
  have h2 := Nat.div_add_mod x (2 ^ (k + 1))
  omega

/-- Structure of a non-leaf node `x` at level `k+1`: its children and
the bounds of its complete subtree. -/
theorem node_facts {x k : Nat} (h : level x = k + 1) :
    x % 2 = 1 ∧
    leftChild x = x - 2 ^ k ∧
    level (leftChild x) = k ∧
    level (x + 2 ^ k) = k ∧
    leftmost x = x - (2 ^ (k + 1) - 1) ∧
    2 ^ (k + 1) - 1 ≤ x ∧
    leftmost (leftChild x) = leftmost x ∧
    subtreeRight (leftChild x) = x - 1 ∧
    leftmost (x + 2 ^ k) = x + 1 ∧
    subtreeRight (x + 2 ^ k) = subtreeRight x ∧
    leftmost x % 2 = 0 := by
  have hrep := rep_of_level h
  set q := x / 2 ^ (k + 1 + 1) with hq
  have e1 : 2 ^ (k + 1 + 1) * q = 2 * (2 ^ (k + 1) * q) := by ring
  rw [e1] at hrep
  set y := 2 ^ (k + 1) * q with hy
  have eB : 2 ^ (k + 1) = 2 * 2 ^ k := by ring
  have hA : 1 ≤ 2 ^ k := Nat.one_le_two_pow
  have hodd : x % 2 = 1 := by omega
  have hlc : leftChild x = x - 2 ^ k := by
    unfold leftChild
    rw [h]
    simp
  have hlevlc : level (leftChild x) = k := by
    have e2 : 2 * q * 2 ^ (k + 1) = 2 * y := by rw [hy]; ring
    have hf := level_form k (2 * q)
    rw [e2] at hf
    have e3 : leftChild x = 2 * y + (2 ^ k - 1) := by rw [hlc]; omega
    rw [e3]; exact hf
  have hlevr0 : level (x + 2 ^ k) = k := by
    have e2 : (2 * q + 1) * 2 ^ (k + 1) = 2 * y + 2 ^ (k + 1) := by rw [hy]; ring
    have hf := level_form k (2 * q + 1)
    rw [e2] at hf
    have e3 : x + 2 ^ k = 2 * y + 2 ^ (k + 1) + (2 ^ k - 1) := by omega
    rw [e3]; exact hf
  have hlm : leftmost x = x - (2 ^ (k + 1) - 1) := by
    unfold leftmost; rw [h]
  have hxge : 2 ^ (k + 1) - 1 ≤ x := by omega
  have hlmlc : leftmost (leftChild x) = leftmost x := by
    unfold leftmost
    rw [hlevlc, h, hlc]
    omega
  have hsrlc : subtreeRight (leftChild x) = x - 1 := by
    unfold subtreeRight
    rw [hlevlc, hlc]
    omega
  have hlmr0 : leftmost (x + 2 ^ k) = x + 1 := by
    unfold leftmost
    rw [hlevr0]
    omega
  have hsrr0 : subtreeRight (x + 2 ^ k) = subtreeRight x := by
    unfold subtreeRight
    rw [hlevr0, h]
    omega
  have hlme : leftmost x % 2 = 0 := by rw [hlm]; omega
  exact ⟨hodd, hlc, hlevlc, hlevr0, hlm, hxge, hlmlc, hsrlc, hlmr0, hsrr0, hlme⟩

theorem leftmost_of_leaf {x : Nat} (h : level x = 0) : leftmost x = x := by
  unfold leftmost; rw [h]; simp

/-- The left-descending loop of `rightChild` lands inside the tree and
preserves the leftmost leaf and the truncated right bound. -/
theorem rightAux_spec (w : Nat) :
    ∀ fuel r, level r ≤ fuel → leftmost r < w →
      rightAux w fuel r < w ∧
      leftmost (rightAux w fuel r) = leftmost r ∧
      min (subtreeRight (rightAux w fuel r)) (w - 1) = min (subtreeRight r) (w - 1) ∧
      level (rightAux w fuel r) ≤ level r := by
  intro fuel
  induction fuel with
  | zero =>
    intro r hfuel hlm
    have h0 : level r = 0 := by omega
    have : rightAux w 0 r = r := rfl
    rw [this]
    rw [leftmost_of_leaf h0] at hlm
    exact ⟨hlm, rfl, rfl, Nat.le_refl _⟩
  | succ f ih =>
    intro r hfuel hlm
    by_cases hr : r < w
    · have : rightAux w (f + 1) r = r := by simp [rightAux, hr]
      rw [this]
      exact ⟨hr, rfl, rfl, Nat.le_refl _⟩
    · have hstep : rightAux w (f + 1) r = rightAux w f (leftChild r) := by
        simp [rightAux, hr]
      have hlev1 : 1 ≤ level r := by
        by_contra hc
        have h0 : level r = 0 := by omega
        rw [leftmost_of_leaf h0] at hlm
        omega
      obtain ⟨k, hk⟩ : ∃ k, level r = k + 1 := ⟨level r - 1, by omega⟩
      obtain ⟨_, _, hlevlc, _, _, _, hlmlc, hsrlc, _, _, _⟩ := node_facts hk
      have hrec := ih (leftChild r) (by omega) (by rw [hlmlc]; exact hlm)
      obtain ⟨h1, h2, h3, h4⟩ := hrec
      rw [hstep]
      refine ⟨h1, by rw [h2, hlmlc], ?_, by omega⟩
      rw [h3, hsrlc]
      have hsr : r ≤ subtreeRight r := by unfold subtreeRight; omega
      omega

theorem descAux_eval_zero {size x : Nat} (h : level x = 0) :
    ∀ f, descAux size f x = [x]
  | 0 => rfl
  | f + 1 => by simp [descAux, h]

theorem descendants_of_leaf {size x : Nat} (h : level x = 0)
    (hx : x < node_width size) : descendants x size = [x] := by
  unfold descendants subtreeRight
  rw [leftmost_of_leaf h, h]
  norm_num
  rw [Nat.min_eq_left (by omega)]
  have h1 : (x + 2 - x) / 2 = 1 := by omega
  rw [h1, List.range'_one]

/-- Core equivalence: for any node inside the tree, the recursive
collection of leaves (with sufficient fuel) equals the arithmetic
range of even indices spanned by the node's truncated subtree. -/
theorem descAux_spec :
    ∀ k x size, level x = k → x < node_width size →
      ∀ f, k ≤ f → descAux size f x = descendants x size := by
  intro k
  induction k using Nat.strong_induction_on with
  | _ k ih =>
    intro x size hlev hx f hf
    rcases Nat.eq_zero_or_pos k with hk0 | hkpos
    · subst hk0
      rw [descAux_eval_zero hlev f, descendants_of_leaf hlev hx]
    · obtain ⟨m, rfl⟩ : ∃ m, k = m + 1 := ⟨k - 1, by omega⟩
      obtain ⟨f', rfl⟩ : ∃ f', f = f' + 1 := ⟨f - 1, by omega⟩
      have hstep : descAux size (f' + 1) x
          = descAux size f' (leftChild x) ++ descAux size f' (rightChild x size) := by
        simp [descAux, hlev]
      obtain ⟨hodd, hlc, hlevlc, hlevr0, hlm, hxge, hlmlc, hsrlc, hlmr0, hsrr0, hlme⟩ :=
        node_facts hlev
      have hw1 : 1 ≤ node_width size := by omega
      have hwodd : node_width size % 2 = 1 := by
        unfold node_width
        unfold node_width at hx
        omega
      have hlmr0w : leftmost (x + 2 ^ m) < node_width size := by rw [hlmr0]; omega
      have hra := rightAux_spec (node_width size) (m + 1) (x + 2 ^ m)
        (by rw [hlevr0]; omega) hlmr0w
      have hrc : rightChild x size = rightAux (node_width size) (m + 1) (x + 2 ^ m) := by
        unfold rightChild
        rw [hlev]
        norm_num
      rw [← hrc] at hra
      obtain ⟨hrw, hrlm, hrmin, hrlev⟩ := hra
      rw [hlevr0] at hrlev
      have hleft := ih m (by omega) (leftChild x) size hlevlc (by rw [hlc]; omega)
        f' (by omega)
      have hright := ih (level (rightChild x size)) (by omega) (rightChild x size)
        size rfl hrw f' (by omega)
      rw [hstep, hleft, hright]
      -- arithmetic over the even-index ranges
      have hsrx : subtreeRight x = x + (2 ^ (m + 1) - 1) := by
        unfold subtreeRight; rw [hlev]
      have heB : 2 ^ (m + 1) = 2 * 2 ^ m := by ring
      have hA : 1 ≤ 2 ^ m := Nat.one_le_two_pow
      have hlo_le : leftmost x ≤ x := by rw [hlm]; omega
      set c1 := (x + 1 - leftmost x) / 2 with hc1
      set c2 := (min (subtreeRight x) (node_width size - 1) + 1 - x) / 2 with hc2
      have hdl : descendants (leftChild x) size = List.range' (leftmost x) c1 2 := by
        unfold descendants
        rw [hlmlc, hsrlc, Nat.min_eq_left (by omega)]
        congr 1
        omega
      have hdr : descendants (rightChild x size) size
          = List.range' (leftmost x + 2 * c1) c2 2 := by
        unfold descendants
        rw [hrlm, hlmr0, hrmin, hsrr0]
        congr 1
        · omega
        · omega
      have hdx : descendants x size
          = List.range' (leftmost x) (c1 + c2) 2 := by
        unfold descendants
        congr 1
        omega
      rw [hdl, hdr, hdx, List.range'_append, Nat.add_comm c2 c1]

theorem pathAux_succ (n c x : Nat) (hc : c < rootLevel n) :
    pathAux n c x
      = (if ancestor x (c + 1) < node_width n then [ancestor x (c + 1)] else [])
        ++ pathAux n (c + 1) (ancestor x (c + 1)) := by
  unfold pathAux
  have hd : rootLevel n - c = (rootLevel n - (c + 1)) + 1 := by omega
  rw [hd, List.range'_succ, List.map_cons, List.filter_cons]
  have hmap : (List.range' (c + 1 + 1) (rootLevel n - (c + 1))).map (ancestor x)
      = (List.range' (c + 1 + 1) (rootLevel n - (c + 1))).map
          (ancestor (ancestor x (c + 1))) := by
    apply List.map_congr_left
    intro a ha
    rw [List.mem_range'] at ha
    obtain ⟨i, _, rfl⟩ := ha
    rw [ancestor_ancestor x (by omega)]
  rw [hmap]
  by_cases hw : ancestor x (c + 1) < node_width n
  · simp [hw]
  · simp [hw]

theorem pathAux_cons (n : Nat) :
    ∀ d c x p rest, rootLevel n - c = d → pathAux n c x = p :: rest →
      p < node_width n ∧ rest = pathAux n (level p) p := by
  intro d
  induction d with
  | zero =>
    intro c x p rest hd h
    exfalso
    unfold pathAux at h
    rw [hd] at h
    simp at h
  | succ d ih =>
    intro c x p rest hd h
    have hc : c < rootLevel n := by omega
    rw [pathAux_succ n c x hc] at h
    by_cases hw : ancestor x (c + 1) < node_width n
    · rw [if_pos hw, List.singleton_append, List.cons.injEq] at h
      obtain ⟨rfl, hrest⟩ := h
      exact ⟨hw, by rw [← hrest, level_ancestor]⟩
    · rw [if_neg hw, List.nil_append] at h
      exact ih (c + 1) (ancestor x (c + 1)) p rest (by omega) h

theorem root_lt_node_width {n : Nat} (hn : 1 ≤ n) : root n < node_width n := by
  have hw : 1 ≤ node_width n := by unfold node_width; omega
  have := Nat.log2_self_le (n := node_width n) (by omega)
  unfold root
  rw [rootLevel_eq]
  omega

theorem one_le_rootLevel {n : Nat} (hn : 2 ≤ n) : 1 ≤ rootLevel n := by
  rw [rootLevel_eq, Nat.le_log2 (by unfold node_width; omega)]
  unfold node_width
  omega

/-- For a leaf inside a tree with at least two leaves, the filtered
ancestor path is non-empty: it contains the root. -/
theorem filteredPath_leaf_ne_nil {n l : Nat} (hn : 2 ≤ n) (hl : l < n) :
    filteredPath (2 * l) n ≠ [] := by
  have hK := one_le_rootLevel hn
  have h2lw : 2 * l < node_width n := by unfold node_width; omega
  have hwlt : node_width n < 2 ^ (rootLevel n + 1) := by
    rw [rootLevel_eq]; exact Nat.lt_log2_self
  have hroot : root n ∈ filteredPath (2 * l) n := by
    unfold filteredPath pathAux
    rw [List.mem_filter]
    constructor
    · rw [List.mem_map]
      refine ⟨rootLevel n, ?_, ?_⟩
      · rw [List.mem_range']
        have hl0 : level (2 * l) = 0 := level_two_mul l
        exact ⟨rootLevel n - (level (2 * l) + 1), by omega, by omega⟩
      · unfold ancestor root
        rw [Nat.div_eq_of_lt (by omega)]
        simp
    · simpa using root_lt_node_width (by omega)
  exact List.ne_nil_of_mem hroot

/-- Claim C3 (amended): for every tree size `n ≥ 2` and every leaf
`l < n`, `leaf_direct_path(l, n)` equals
`parent_direct_path(parent(l, n), n)` (composing through the `Except`
monad).  The original claim ranged over all `n ≥ 1`; it fails for the
single-leaf tree `n = 1`, whose only leaf is the root and has no
parent — see the counterexample below. -/
theorem leaf_direct_path_eq_parent_direct_path {n l : Nat} (hn : 2 ≤ n) (hl : l < n) :
    leaf_direct_path l n
      = (parent (2 * l) n).bind (fun p => parent_direct_path p n) := by
  have h2lw : 2 * l < node_width n := by unfold node_width; omega
  obtain ⟨p, rest, hcons⟩ :=
    List.exists_cons_of_ne_nil (filteredPath_leaf_ne_nil hn hl)
  have hsplit := pathAux_cons n (rootLevel n - level (2 * l)) (level (2 * l))
    (2 * l) p rest rfl hcons
  obtain ⟨hpw, hrest⟩ := hsplit
  have hparent : parent (2 * l) n = .ok p := by
    unfold parent
    rw [if_pos h2lw]
    have : filteredPath (2 * l) n = p :: rest := hcons
    rw [this]
  rw [hparent]
  show leaf_direct_path l n = parent_direct_path p n
  unfold leaf_direct_path parent_direct_path
  rw [if_pos hl, if_pos hpw]
  have : filteredPath (2 * l) n = p :: rest := hcons
  rw [this, hrest]
  rfl

/-- Claim C3 (counterexample): in the single-leaf tree (`n = 1`,
`l = 0`) the leaf is the root; `leaf_direct_path` succeeds with the
empty path while `parent` fails, so the claimed equality does not hold
at `n = 1`. -/
theorem leaf_direct_path_single_leaf_counterexample :
    leaf_direct_path 0 1 ≠ (parent (2 * 0) 1).bind (fun p => parent_direct_path p 1)
      ∧ leaf_direct_path 0 1 = .ok []
      ∧ parent (2 * 0) 1 = .error .NodeNotInTree := by
  refine ⟨by decide, by decide, by decide⟩

/-- Claim C3 (witness): concrete instance of the amended theorem at
`n = 3`, `l = 1`. -/
theorem leaf_direct_path_eq_parent_direct_path_witness :
    (2 ≤ 3 ∧ 1 < 3) ∧
      leaf_direct_path 1 3 = (parent (2 * 1) 3).bind (fun p => parent_direct_path p 3) :=
  ⟨by decide, leaf_direct_path_eq_parent_direct_path (by decide) (by decide)⟩

/-- Claim C4: for every pair `(node, size)` with `node < 2*size - 1`,
the recursive derivation of the leaves under `node` agrees with the
iterative (arithmetic-range) derivation:
`descendants(node, size) = descendants_alt(node, size)`. -/
theorem descendants_eq_descendants_alt (node size : Nat)
    (h : node < 2 * size - 1) :
    descendants node size = descendants_alt node size :=
  (descAux_spec (level node) node size rfl (by unfold node_width; omega)
    (level node) (Nat.le_refl _)).symm

/-- Claim C4 (witness): concrete instance at `node = 3`, `size = 3`. -/
theorem descendants_eq_descendants_alt_witness :
    3 < 2 * 3 - 1 ∧ descendants 3 3 = descendants_alt 3 3 :=
  ⟨by decide, descendants_eq_descendants_alt 3 3 (by decide)⟩

/-- Claim C7: tree-math functions reject out-of-tree inputs with the
stated errors: `parent(x, size)` fails with `NodeNotInTree` for every
`x ≥ 2*size-1` (in particular `parent(1000, 100)`), and
`leaf_direct_path(3, 2)` fails with `LeafNotInTree`. -/
theorem treemath_invalid_inputs :
    (∀ x n : Nat, 2 * n - 1 ≤ x → parent x n = .error .NodeNotInTree)
      ∧ parent 1000 100 = .error .NodeNotInTree
      ∧ leaf_direct_path 3 2 = .error .LeafNotInTree := by
  refine ⟨?_, by decide, by decide⟩
  intro x n h
  unfold parent
  rw [if_neg (by unfold node_width; omega)]

/-- Claim C7 (witness): the universally quantified part applied at the
concrete out-of-tree input `parent(1000, 100)`. -/
theorem treemath_invalid_inputs_witness :
    2 * 100 - 1 ≤ 1000 ∧ parent 1000 100 = .error .NodeNotInTree :=
  ⟨by decide, treemath_invalid_inputs.1 1000 100 (by decide)⟩

theorem nat_or_eq_zero {x y : Nat} : x ||| y = 0 ↔ x = 0 ∧ y = 0 := by
  constructor
  · intro h
    constructor
    · by_contra hx
      obtain ⟨i, hi⟩ := Nat.exists_most_significant_bit hx
      have hb := Nat.testBit_or x y i
      rw [h] at hb
      simp [hi.1] at hb
    · by_contra hy
      obtain ⟨i, hi⟩ := Nat.exists_most_significant_bit hy
      have hb := Nat.testBit_or x y i
      rw [h] at hb
      simp [hi.1] at hb
  · rintro ⟨rfl, rfl⟩
    rfl

theorem foldl_or_xor_eq_zero (l : List (Nat × Nat)) :
    ∀ acc, (l.foldl (fun acc p => acc ||| (p.1 ^^^ p.2)) acc = 0
      ↔ acc = 0 ∧ ∀ p ∈ l, p.1 = p.2) := by
  induction l with
  | nil => intro acc; simp
  | cons a t ih =>
    intro acc
    simp only [List.foldl_cons]
    rw [ih, nat_or_eq_zero, Nat.xor_eq_zero, List.forall_mem_cons]
    tauto

theorem eq_of_zip_eq (a : Bytes) :
    ∀ b : Bytes, a.length = b.length → (∀ p ∈ a.zip b, p.1 = p.2) → a = b := by
  induction a with
  | nil =>
    intro b hlen _
    cases b with
    | nil => rfl
    | cons y s => simp at hlen
  | cons x t ih =>
    intro b hlen hall
    cases b with
    | nil => simp at hlen
    | cons y s =>
      have hx : x = y := hall (x, y) (by simp [List.zip_cons_cons])
      have ht := ih s (by simpa using hlen)
        (fun p hp => hall p (by simp [List.zip_cons_cons, hp]))
      rw [hx, ht]

theorem mem_zip_self {a : Bytes} : ∀ p ∈ a.zip a, p.1 = p.2 := by
  induction a with
  | nil => simp
  | cons x t ih =>
    intro p hp
    rw [List.zip_cons_cons, List.mem_cons] at hp
    rcases hp with rfl | hp
    · rfl
    · exact ih p hp

theorem equal_ct_eq_true_iff (a b : Bytes) : equal_ct a b = true ↔ a = b := by
  unfold equal_ct
  rw [Bool.and_eq_true, beq_iff_eq, beq_iff_eq, foldl_or_xor_eq_zero]
  constructor
  · rintro ⟨hlen, -, hall⟩
    exact eq_of_zip_eq a b hlen hall
  · rintro rfl
    exact ⟨rfl, rfl, mem_zip_self⟩

/-- Claim C9: `Mac::eq` is constant-time — the number of byte
operations it performs is a function of the two mac-value lengths only,
independent of their contents and hence of the position of the first
differing byte — and semantically it returns `true` exactly when the
two byte sequences are equal. -/
theorem mac_eq_constant_time :
    (∀ a b a' b' : Mac,
        a.mac_value.length = a'.mac_value.length →
        b.mac_value.length = b'.mac_value.length →
        Mac.eqSteps a b = Mac.eqSteps a' b')
    ∧ (∀ a b : Mac, Mac.eq a b = true ↔ a = b) := by
  constructor
  · intro a b a' b' ha hb
    unfold Mac.eqSteps equal_ct_steps
    rw [List.length_zip, List.length_zip, ha, hb]
  · intro a b
    unfold Mac.eq
    rw [equal_ct_eq_true_iff]
    cases a with
    | mk va =>
      cases b with
      | mk vb => simp

/-- Claim C9 (witness): two pairs of three-byte macs that differ in the
first byte and in the last byte take the same number of operations, and
equality on a concrete pair is decided correctly. -/
theorem mac_eq_constant_time_witness :
    Mac.eqSteps ⟨[0, 0, 0]⟩ ⟨[1, 0, 0]⟩ = Mac.eqSteps ⟨[0, 0, 0]⟩ ⟨[0, 0, 1]⟩
      ∧ (Mac.eq ⟨[5, 6]⟩ ⟨[5, 6]⟩ = true ↔ (⟨[5, 6]⟩ : Mac) = ⟨[5, 6]⟩) :=
  ⟨mac_eq_constant_time.1 ⟨[0, 0, 0]⟩ ⟨[1, 0, 0]⟩ ⟨[0, 0, 0]⟩ ⟨[0, 0, 1]⟩ rfl rfl,
    mac_eq_constant_time.2 ⟨[5, 6]⟩ ⟨[5, 6]⟩⟩

theorem decodeU32_u32be {n : Nat} (h : n < 2 ^ 32) (rest : Bytes) :
    decodeU32 (u32be n ++ rest) = some (n, rest) := by
  unfold u32be decodeU32
  simp only [List.cons_append, List.nil_append]
  congr 2
  omega

/-- Claim C6: encoding then decoding reproduces every encodable
`ProposalOrRef`; in particular
`ProposalOrRef::Proposal(Remove{removed: 123})` and a
`ProposalOrRef::Reference` round-trip. -/
theorem proposal_or_ref_roundtrip :
    (∀ m : ProposalOrRef, wfProposalOrRef m →
        decodeProposalOrRef (encodeProposalOrRef m) = some (m, []))
      ∧ decodeProposalOrRef
          (encodeProposalOrRef (.proposal (.remove ⟨123⟩)))
          = some (.proposal (.remove ⟨123⟩), [])
      ∧ decodeProposalOrRef
          (encodeProposalOrRef (.reference ⟨[7, 7, 7]⟩))
          = some (.reference ⟨[7, 7, 7]⟩, []) := by
  refine ⟨?_, by decide, by decide⟩
  intro m hm
  match m with
  | .proposal (.remove p) =>
    unfold encodeProposalOrRef encodeProposal decodeProposalOrRef
    have h123 : decodeU32 (u32be p.removed ++ []) = some (p.removed, []) :=
      decodeU32_u32be hm []
    rw [List.append_nil] at h123
    simp [decodeProposal, h123]
  | .reference r =>
    unfold encodeProposalOrRef encodeVecU8 decodeProposalOrRef decodeVecU8
    simp

/-- Claim C6 (witness): the universally quantified round-trip applied
at the concrete `Remove{removed: 123}` instance. -/
theorem proposal_or_ref_roundtrip_witness :
    wfProposalOrRef (.proposal (.remove ⟨123⟩))
      ∧ decodeProposalOrRef (encodeProposalOrRef (.proposal (.remove ⟨123⟩)))
          = some (.proposal (.remove ⟨123⟩), []) :=
  ⟨by decide, proposal_or_ref_roundtrip.1 (.proposal (.remove ⟨123⟩)) (by decide)⟩

theorem queueInsert_notMem {ρ α : Type} [DecidableEq ρ]
    (q : List (ρ × α)) (r : ρ) (p : α) (h : r ∉ q.map Prod.fst) :
    queueInsert q r p = q ++ [(r, p)] := by
  unfold queueInsert
  rw [if_neg]
  intro hc
  rw [List.any_eq_true] at hc
  obtain ⟨e, he, hre⟩ := hc
  rw [decide_eq_true_eq] at hre
  exact h (hre ▸ List.mem_map_of_mem Prod.fst he)

theorem from_by_ref_aux {ρ α : Type} [DecidableEq ρ] (hash : α → ρ) :
    ∀ (props : List α) (acc : List (ρ × α)),
      (acc.map Prod.fst ++ props.map hash).Nodup →
      (props.foldl (fun q p => queueInsert q (hash p) p) acc).map Prod.snd
        = acc.map Prod.snd ++ props := by
  intro props
  induction props with
  | nil => intro acc _; simp
  | cons p t ih =>
    intro acc hnd
    have hnotin : hash p ∉ acc.map Prod.fst := by
      rw [List.map_cons, List.nodup_append] at hnd
      intro hc
      exact hnd.2.2 hc (List.mem_cons_self _ _)
    rw [List.foldl_cons, queueInsert_notMem acc (hash p) p hnotin]
    have hnd' : ((acc ++ [(hash p, p)]).map Prod.fst ++ t.map hash).Nodup := by
      rw [List.map_append]
      rw [List.append_assoc]
      simpa using hnd
    rw [ih (acc ++ [(hash p, p)]) hnd']
    simp

theorem from_committed_aux_spec {ρ α : Type} [DecidableEq ρ] (hash : α → ρ)
    (available : List α) :
    ∀ (por : List (ProposalOrRefG ρ α)) (acc q : List (ρ × α)),
      from_committed_aux hash available por acc = .ok q →
      (acc.map Prod.fst ++ por.map (refOf hash)).Nodup →
      q.map (fun e => some e.2)
        = acc.map (fun e => some e.2)
          ++ por.map (resolveProposalOrRef hash available) := by
  intro por
  induction por with
  | nil =>
    intro acc q h _
    have : acc = q := by
      simpa [from_committed_aux] using h
    rw [← this]
    simp
  | cons x t ih =>
    intro acc q h hnd
    cases x with
    | proposal p =>
      have hnotin : hash p ∉ acc.map Prod.fst := by
        rw [List.map_cons, List.nodup_append] at hnd
        intro hc
        exact hnd.2.2 hc (by simp [refOf])
      rw [from_committed_aux, queueInsert_notMem acc (hash p) p hnotin] at h
      have hnd' : ((acc ++ [(hash p, p)]).map Prod.fst ++ t.map (refOf hash)).Nodup := by
        rw [List.map_append, List.append_assoc]
        simpa [refOf] using hnd
      have := ih (acc ++ [(hash p, p)]) q h hnd'
      rw [this]
      simp [resolveProposalOrRef]
    | reference r =>
      rw [from_committed_aux] at h
      cases hf : available.find? (fun p => decide (hash p = r)) with
      | none => rw [hf] at h; exact absurd h (by simp)
      | some p =>
        rw [hf] at h
        dsimp only at h
        have hnotin : r ∉ acc.map Prod.fst := by
          rw [List.map_cons, List.nodup_append] at hnd
          intro hc
          exact hnd.2.2 hc (by simp [refOf])
        rw [queueInsert_notMem acc r p hnotin] at h
        have hnd' : ((acc ++ [(r, p)]).map Prod.fst ++ t.map (refOf hash)).Nodup := by
          rw [List.map_append, List.append_assoc]
          simpa [refOf] using hnd
        have := ih (acc ++ [(r, p)]) q h hnd'
        rw [this]
        simp [resolveProposalOrRef, hf]

/-- Claim C5: a `ProposalQueue` built by `from_proposals_by_reference`
iterates in the input order of the proposals (for input
`[alice_add, bob_add]` it yields alice then bob), and a queue built by
`from_committed_proposals` iterates in the commit's stated
`ProposalOrRef` order (for `[Proposal(bob_add), Ref(alice_add)]`
against available `{alice_add, bob_add}` it yields bob then alice).
The general statements assume the proposal references are pairwise
distinct, as they are in the test scenario. -/
theorem proposal_queue_order :
    (∀ (ρ α : Type) [DecidableEq ρ] (hash : α → ρ) (props : List α),
        (props.map hash).Nodup →
        (from_proposals_by_reference hash props).entries.map Prod.snd = props)
      ∧ (∀ (ρ α : Type) [DecidableEq ρ] (hash : α → ρ)
            (por : List (ProposalOrRefG ρ α)) (available : List α)
            (q : ProposalQueue ρ α),
          from_committed_proposals hash por available = .ok q →
          (por.map (refOf hash)).Nodup →
          q.entries.map (fun e => some e.2)
            = por.map (resolveProposalOrRef hash available))
      ∧ (from_proposals_by_reference (fun p : Nat => p) [0, 1]).entries.map
          Prod.snd = [0, 1]
      ∧ from_committed_proposals (fun p : Nat => p)
          [ProposalOrRefG.proposal 1, ProposalOrRefG.reference 0] [0, 1]
          = .ok ⟨[(1, 1), (0, 0)]⟩ := by
  refine ⟨?_, ?_, by decide, by decide⟩
  · intro ρ α inst hash props hnd
    unfold from_proposals_by_reference
    have := from_by_ref_aux hash props [] (by simpa using hnd)
    simpa using this
  · intro ρ α inst hash por available q h hnd
    unfold from_committed_proposals at h
    cases haux : from_committed_aux hash available por [] with
    | error e => rw [haux] at h; exact absurd h (by simp [Except.map])
    | ok l =>
      rw [haux] at h
      have hql : q.entries = l := by
        simp [Except.map] at h
        rw [← h]
      have := from_committed_aux_spec hash available por [] l haux (by simpa using hnd)
      rw [hql]
      simpa using this

/-- Claim C5 (witness): the general order statement applied at a
concrete two-proposal input with distinct references. -/
theorem proposal_queue_order_witness :
    ([10, 20].map (fun p : Nat => p)).Nodup
      ∧ (from_proposals_by_reference (fun p : Nat => p) [10, 20]).entries.map
          Prod.snd = [10, 20] :=
  ⟨by decide, proposal_queue_order.1 Nat Nat (fun p : Nat => p) [10, 20] (by decide)⟩

theorem joinWithNodes_ok_spec {b : Backend} {kpb : KeyPackageBundle}
    {ps : Option Bytes} {ks : Bytes} {ver : Nat} {gi : GroupInfo}
    {nodes : List (Option Node)} {en : Bool} {g : MlsGroup}
    (h : joinWithNodes b kpb ps ks ver gi nodes en = .ok g) :
    g.use_ratchet_tree_extension = en
      ∧ g.mls_version = ver
      ∧ g.group_context.confirmed_transcript_hash = gi.confirmed_transcript_hash
      ∧ gi.confirmation_tag
          = b.macTag g.epoch_secrets.confirmation_key
              g.group_context.confirmed_transcript_hash
      ∧ g.interim_transcript_hash
          = update_interim_transcript_hash b.hash
              (b.authDataOfTag gi.confirmation_tag)
              g.group_context.confirmed_transcript_hash := by
  unfold joinWithNodes at h
  cases htree : b.newFromNodes kpb nodes with
  | none => rw [htree] at h; exact absurd h (by simp)
  | some tree =>
    rw [htree] at h
    dsimp only at h
    by_cases h1 : b.treeHash tree ≠ gi.tree_hash
    · rw [if_pos h1] at h; exact absurd h (by simp)
    · rw [if_neg h1] at h
      by_cases h2 : b.verifyParentHashes tree = true
      · rw [if_neg (not_not_intro h2)] at h
        cases hsk : (tree.nodes.getD gi.signer_index ⟨none⟩).key_package with
        | none => rw [hsk] at h; exact absurd h (by simp)
        | some skp =>
          rw [hsk] at h
          dsimp only at h
          by_cases h3 : b.verifySignature gi skp = true
          · rw [if_neg (not_not_intro h3)] at h
            cases hcp : continue_path_secrets_step b gi tree ps with
            | error e => rw [hcp] at h; exact absurd h (by simp)
            | ok tree₁ =>
              rw [hcp] at h
              dsimp only at h
              cases hks1 : b.ksAddContext ks
                  (mkJoinGroupContext gi (b.treeHash tree)) with
              | none => rw [hks1] at h; exact absurd h (by simp)
              | some ks₁ =>
                rw [hks1] at h
                dsimp only at h
                cases hes : b.ksEpochSecrets ks₁ with
                | none => rw [hes] at h; exact absurd h (by simp)
                | some es =>
                  rw [hes] at h
                  dsimp only at h
                  by_cases h4 : b.macTag es.confirmation_key
                      gi.confirmed_transcript_hash ≠ gi.confirmation_tag
                  · rw [if_pos h4] at h; exact absurd h (by simp)
                  · rw [if_neg h4] at h
                    rw [not_not] at h4
                    have hg := Except.ok.inj h
                    rw [← hg]
                    refine ⟨rfl, rfl, rfl, ?_, ?_⟩
                    · exact (by simpa [mkJoinGroupContext] using h4.symm)
                    · simp [mkJoinGroupContext, h4]
          · rw [if_pos h3] at h; exact absurd h (by simp)
      · rw [if_pos h2] at h; exact absurd h (by simp)

/-- Claim C2: for every commit, the transcript chain is computed as
`confirmed_transcript_hash_after =
H(interim_transcript_hash_before || MlsPlaintextCommitContent(commit))`
and `interim_transcript_hash_after =
H(confirmed_transcript_hash_after || MlsPlaintextCommitAuthData(commit))`,
and the commit's confirmation tag equals
`MAC(confirmation_key, confirmed_transcript_hash_after)`: a transcript
test vector passes `run_test_vector`'s checks exactly under these
equations, and a Welcome join succeeds only with a GroupInfo
confirmation tag equal to `MAC(confirmation_key,
confirmed_transcript_hash)` and computes its interim transcript hash
from that tag's auth data. -/
theorem transcript_chain :
    (∀ (b : Backend) (tv : TranscriptTestVector) (commit : MlsPlaintextCommit),
        run_test_vector_checks b tv commit = .ok () →
        commit.confirmation_tag
            = some (b.macTag tv.confirmation_key tv.confirmed_transcript_hash_after)
          ∧ tv.confirmed_transcript_hash_after
              = update_confirmed_transcript_hash b.hash (b.commitContent commit)
                  tv.interim_transcript_hash_before
          ∧ tv.interim_transcript_hash_after
              = update_interim_transcript_hash b.hash (b.commitAuthData commit)
                  tv.confirmed_transcript_hash_after)
      ∧ (∀ (b : Backend) (kpb : KeyPackageBundle) (ps : Option Bytes)
            (ks : Bytes) (ver : Nat) (gi : GroupInfo)
            (nodes : List (Option Node)) (en : Bool) (g : MlsGroup),
          joinWithNodes b kpb ps ks ver gi nodes en = .ok g →
          gi.confirmation_tag
              = b.macTag g.epoch_secrets.confirmation_key
                  g.group_context.confirmed_transcript_hash
            ∧ g.interim_transcript_hash
                = update_interim_transcript_hash b.hash
                    (b.authDataOfTag gi.confirmation_tag)
                    g.group_context.confirmed_transcript_hash) := by
  constructor
  · intro b tv commit h
    unfold run_test_vector_checks at h
    cases hct : commit.confirmation_tag with
    | none => rw [hct] at h; exact absurd h (by simp)
    | some tag =>
      rw [hct] at h
      dsimp only at h
      by_cases h1 : b.macTag tv.confirmation_key tv.confirmed_transcript_hash_after ≠ tag
      · rw [if_pos h1] at h; exact absurd h (by simp)
      · rw [if_neg h1] at h
        rw [not_not] at h1
        by_cases h2 : update_confirmed_transcript_hash b.hash (b.commitContent commit)
            tv.interim_transcript_hash_before ≠ tv.confirmed_transcript_hash_after
        · rw [if_pos h2] at h; exact absurd h (by simp)
        · rw [if_neg h2] at h
          rw [not_not] at h2
          by_cases h3 : update_interim_transcript_hash b.hash (b.commitAuthData commit)
              (update_confirmed_transcript_hash b.hash (b.commitContent commit)
                tv.interim_transcript_hash_before) ≠ tv.interim_transcript_hash_after
          · rw [if_pos h3] at h; exact absurd h (by simp)
          · rw [not_not] at h3
            rw [h1]
            rw [h2] at h3
            exact ⟨rfl, h2.symm, h3.symm⟩
  · intro b kpb ps ks ver gi nodes en g h
    obtain ⟨-, -, -, h4, h5⟩ := joinWithNodes_ok_spec h
    exact ⟨h4, h5⟩

theorem find_key_package_spec (b : Backend) (kp : KeyPackage) :
    ∀ l : List EncryptedGroupSecrets,
      (find_key_package_from_welcome_secrets b kp l = none
          ↔ ∀ e ∈ l, b.kpHash kp ≠ e.key_package_hash)
        ∧ (∀ egs, find_key_package_from_welcome_secrets b kp l = some egs →
            b.kpHash kp = egs.key_package_hash
              ∧ ∃ i : Nat, l[i]? = some egs
                  ∧ ∀ (j : Nat) (e : EncryptedGroupSecrets), j < i → l[j]? = some e →
                      b.kpHash kp ≠ e.key_package_hash) := by
  intro l
  induction l with
  | nil =>
    refine ⟨by simp [find_key_package_from_welcome_secrets], ?_⟩
    intro egs h
    exact absurd h (by simp [find_key_package_from_welcome_secrets])
  | cons egs rest ih =>
    by_cases hh : b.kpHash kp = egs.key_package_hash
    · have hfind : find_key_package_from_welcome_secrets b kp (egs :: rest) = some egs := by
        simp [find_key_package_from_welcome_secrets, hh]
      constructor
      · rw [hfind]
        constructor
        · intro hc; exact absurd hc (by simp)
        · intro hall
          exact absurd hh (hall egs (List.mem_cons_self _ _))
      · intro egs' h'
        rw [hfind] at h'
        have : egs = egs' := Option.some.inj h'
        subst this
        refine ⟨hh, 0, by simp, ?_⟩
        intro j e hj _
        omega
    · have hfind : find_key_package_from_welcome_secrets b kp (egs :: rest)
          = find_key_package_from_welcome_secrets b kp rest := by
        simp [find_key_package_from_welcome_secrets, hh]
      constructor
      · rw [hfind, ih.1]
        constructor
        · intro hall e he
          rcases List.mem_cons.mp he with rfl | he'
          · exact hh
          · exact hall e he'
        · intro hall e he
          exact hall e (List.mem_cons_of_mem _ he)
      · intro egs' h'
        rw [hfind] at h'
        obtain ⟨heq, i, hi, hbefore⟩ := ih.2 egs' h'
        refine ⟨heq, i + 1, by simpa using hi, ?_⟩
        intro j e hj hje
        cases j with
        | zero =>
          have : egs = e := by simpa using hje
          rw [← this]
          exact hh
        | succ j' =>
          exact hbefore j' e (by omega) (by simpa using hje)

/-- Claim C8: when no entry of the Welcome's `EncryptedGroupSecrets`
list has `key_package_hash = H(own key package)`, the join fails with
`JoinerSecretNotFound`; when such an entry exists, the first matching
entry in list order is the one selected, and the join continues with
it. -/
theorem welcome_joiner_secret_lookup (b : Backend) (welcome : Welcome)
    (nodes_option : Option (List (Option Node))) (kpb : KeyPackageBundle)
    (hv : welcome.version ∈ b.supportedVersions)
    (hcs : b.supportedCiphersuite welcome.cipher_suite = true) :
    ((∀ e ∈ welcome.secrets, b.kpHash kpb.key_package ≠ e.key_package_hash) →
        new_from_welcome_internal b welcome nodes_option kpb
          = .error .JoinerSecretNotFound)
      ∧ (∀ egs,
          find_key_package_from_welcome_secrets b kpb.key_package welcome.secrets
              = some egs →
          new_from_welcome_internal b welcome nodes_option kpb
              = joinWithEgs b welcome nodes_option kpb egs
            ∧ b.kpHash kpb.key_package = egs.key_package_hash
            ∧ ∃ i : Nat, welcome.secrets[i]? = some egs
                ∧ ∀ (j : Nat) (e : EncryptedGroupSecrets), j < i →
                    welcome.secrets[j]? = some e →
                    b.kpHash kpb.key_package ≠ e.key_package_hash) := by
  have hmain : ∀ r,
      find_key_package_from_welcome_secrets b kpb.key_package welcome.secrets = r →
      new_from_welcome_internal b welcome nodes_option kpb
        = (match r with
           | some egs => joinWithEgs b welcome nodes_option kpb egs
           | none => .error .JoinerSecretNotFound) := by
    intro r hr
    unfold new_from_welcome_internal
    rw [if_pos hv, if_pos hcs, hr]
  constructor
  · intro hall
    have hnone := (find_key_package_spec b kpb.key_package welcome.secrets).1.mpr hall
    simpa using hmain none hnone
  · intro egs hegs
    have hb := (find_key_package_spec b kpb.key_package welcome.secrets).2 egs hegs
    exact ⟨by simpa using hmain (some egs) hegs, hb.1, hb.2⟩

/-- Claim C10: in the Welcome join the ciphersuite-consistency check
comes after the `EncryptedGroupSecrets` lookup — with the ciphersuites
differing, a found entry yields `CiphersuiteMismatch`, but with no
matching entry the join returns `JoinerSecretNotFound` instead. -/
theorem welcome_lookup_before_ciphersuite_check (b : Backend) (welcome : Welcome)
    (nodes_option : Option (List (Option Node))) (kpb : KeyPackageBundle)
    (hv : welcome.version ∈ b.supportedVersions)
    (hcs : b.supportedCiphersuite welcome.cipher_suite = true)
    (hdiff : welcome.cipher_suite ≠ kpb.key_package.ciphersuite_name) :
    (find_key_package_from_welcome_secrets b kpb.key_package welcome.secrets = none →
        new_from_welcome_internal b welcome nodes_option kpb
          = .error .JoinerSecretNotFound)
      ∧ (∀ egs,
          find_key_package_from_welcome_secrets b kpb.key_package welcome.secrets
              = some egs →
          new_from_welcome_internal b welcome nodes_option kpb
            = .error .CiphersuiteMismatch) := by
  constructor
  · intro hnone
    unfold new_from_welcome_internal
    rw [if_pos hv, if_pos hcs, hnone]
  · intro egs hegs
    unfold new_from_welcome_internal
    rw [if_pos hv, if_pos hcs, hegs]
    dsimp only
    unfold joinWithEgs
    rw [if_pos hdiff]

/-- Claim C1: after the Welcome join has decrypted and decoded the
GroupInfo (and its required-capabilities check passed): more than one
RatchetTree extension in `other_extensions` fails the join with
`DuplicateRatchetTreeExtension`; exactly one makes the join continue
with that extension's tree and enables the ratchet-tree extension for
the group; none makes it continue with the caller-provided nodes; and
with neither an extension nor caller-provided nodes the join fails with
`MissingRatchetTree`. -/
theorem welcome_ratchet_tree_resolution (b : Backend) (kpb : KeyPackageBundle)
    (ps : Option Bytes) (ks : Bytes) (ver : Nat)
    (nodes_option : Option (List (Option Node))) (gi : GroupInfo)
    (hcap : requiredCapabilitiesCheck b kpb gi = .ok ()) :
    ((collectRatchetTreeExtensions gi.other_extensions).length > 1 →
        joinFromGroupInfo b kpb ps ks ver nodes_option gi
          = .error .DuplicateRatchetTreeExtension)
      ∧ (∀ rte, collectRatchetTreeExtensions gi.other_extensions = [some rte] →
          joinFromGroupInfo b kpb ps ks ver nodes_option gi
              = joinWithNodes b kpb ps ks ver gi rte.nodes true
            ∧ ∀ g, joinFromGroupInfo b kpb ps ks ver nodes_option gi = .ok g →
                g.use_ratchet_tree_extension = true)
      ∧ (collectRatchetTreeExtensions gi.other_extensions = [] →
          (∀ ns, nodes_option = some ns →
              joinFromGroupInfo b kpb ps ks ver nodes_option gi
                = joinWithNodes b kpb ps ks ver gi ns false)
            ∧ (nodes_option = none →
                joinFromGroupInfo b kpb ps ks ver nodes_option gi
                  = .error .MissingRatchetTree)) := by
  have hjoin : ∀ r, resolveRatchetTreeNodes gi.other_extensions nodes_option = r →
      joinFromGroupInfo b kpb ps ks ver nodes_option gi
        = (match r with
           | .error e => .error e
           | .ok (nodes, enable) =>
             joinWithNodes b kpb ps ks ver gi nodes enable) := by
    intro r hr
    unfold joinFromGroupInfo
    rw [hcap]
    dsimp only
    rw [hr]
  refine ⟨?_, ?_, ?_⟩
  · intro hlen
    have hres : resolveRatchetTreeNodes gi.other_extensions nodes_option
        = .error .DuplicateRatchetTreeExtension := by
      simp only [resolveRatchetTreeNodes]
      rw [if_pos hlen]
    simpa using hjoin _ hres
  · intro rte hone
    have hres : resolveRatchetTreeNodes gi.other_extensions nodes_option
        = .ok (rte.nodes, true) := by
      simp [resolveRatchetTreeNodes, hone]
    have heq : joinFromGroupInfo b kpb ps ks ver nodes_option gi
        = joinWithNodes b kpb ps ks ver gi rte.nodes true := by
      simpa using hjoin _ hres
    refine ⟨heq, ?_⟩
    intro g hg
    rw [heq] at hg
    exact (joinWithNodes_ok_spec hg).1
  · intro hempty
    constructor
    · intro ns hns
      have hres : resolveRatchetTreeNodes gi.other_extensions nodes_option
          = .ok (ns, false) := by
        simp [resolveRatchetTreeNodes, hempty, hns]
      simpa using hjoin _ hres
    · intro hns
      have hres : resolveRatchetTreeNodes gi.other_extensions nodes_option
          = .error .MissingRatchetTree := by
        simp [resolveRatchetTreeNodes, hempty, hns]
      simpa using hjoin _ hres

/-- Claim C2 (witness): a concrete test vector passes the transcript
checks, and the theorem extracts the three transcript-chain equations
for it. -/
theorem transcript_chain_witness :
    run_test_vector_checks B0 TV0 C0 = .ok ()
      ∧ (C0.confirmation_tag
            = some (B0.macTag TV0.confirmation_key TV0.confirmed_transcript_hash_after)
          ∧ TV0.confirmed_transcript_hash_after
              = update_confirmed_transcript_hash B0.hash (B0.commitContent C0)
                  TV0.interim_transcript_hash_before
          ∧ TV0.interim_transcript_hash_after
              = update_interim_transcript_hash B0.hash (B0.commitAuthData C0)
                  TV0.confirmed_transcript_hash_after) :=
  ⟨by decide, transcript_chain.1 B0 TV0 C0 (by decide)⟩

/-- Claim C1 (witness): a GroupInfo carrying the ratchet-tree extension
twice makes the join fail with `DuplicateRatchetTreeExtension`, and one
carrying no RatchetTree extension and no caller-provided nodes makes it
fail with `MissingRatchetTree`. -/
theorem welcome_ratchet_tree_resolution_witness :
    (requiredCapabilitiesCheck B0 KPB0 GI2 = .ok ()
        ∧ (collectRatchetTreeExtensions GI2.other_extensions).length > 1
        ∧ joinFromGroupInfo B0 KPB0 none [] 1 none GI2
            = .error .DuplicateRatchetTreeExtension)
      ∧ (requiredCapabilitiesCheck B0 KPB0 GI0 = .ok ()
          ∧ collectRatchetTreeExtensions GI0.other_extensions = []
          ∧ joinFromGroupInfo B0 KPB0 none [] 1 none GI0
              = .error .MissingRatchetTree) :=
  ⟨⟨by decide, by decide,
      (welcome_ratchet_tree_resolution B0 KPB0 none [] 1 none GI2 (by decide)).1
        (by decide)⟩,
    by decide, by decide,
    ((welcome_ratchet_tree_resolution B0 KPB0 none [] 1 none GI0 (by decide)).2.2
      (by decide)).2 rfl⟩

/-- Claim C8 (witness): a Welcome with no matching
`EncryptedGroupSecrets` entry makes the join fail with
`JoinerSecretNotFound`. -/
theorem welcome_joiner_secret_lookup_witness :
    (W0.version ∈ B0.supportedVersions
        ∧ B0.supportedCiphersuite W0.cipher_suite = true
        ∧ (∀ e ∈ W0.secrets, B0.kpHash KPB0.key_package ≠ e.key_package_hash))
      ∧ new_from_welcome_internal B0 W0 none KPB0 = .error .JoinerSecretNotFound :=
  ⟨⟨by decide, by decide, by decide⟩,
    (welcome_joiner_secret_lookup B0 W0 none KPB0 (by decide) (by decide)).1
      (by decide)⟩

/-- Claim C10 (witness): with differing ciphersuites but no matching
entry, the join still fails with `JoinerSecretNotFound` (the lookup
comes first). -/
theorem welcome_lookup_before_ciphersuite_check_witness :
    (W1.cipher_suite ≠ KPB0.key_package.ciphersuite_name
        ∧ find_key_package_from_welcome_secrets B0 KPB0.key_package W1.secrets = none)
      ∧ new_from_welcome_internal B0 W1 none KPB0 = .error .JoinerSecretNotFound :=
  ⟨⟨by decide, by decide⟩,
    (welcome_lookup_before_ciphersuite_check B0 W1 none KPB0 (by decide) (by decide)
      (by decide)).1 (by decide)⟩

end OpenMLS
